import Mathlib

/-!
Shallow embedding of the password-maker core (src/password-maker/src/lib.rs)
of the mkpw repository, together with proofs of the specified properties.

Randomness is modelled by explicit streams of natural numbers: each call of
the source function create_rng yields one stream, and a uniform draw in
the half-open range 0..max is modelled as the next stream value reduced
modulo max.  A run of the rejection-sampling loop in unique_random_numbers
is given an explicit fuel bound; exhausting the fuel, and every panicking
branch of the Rust code, are modelled as the result none.
-/

namespace Mkpw

/-- Settings for characters used in the password (struct Classifier). -/
structure Classifier where
  candidates : List String
  minimum_count : Nat
  deriving Repr, DecidableEq, Inhabited

/-- Password generator settings (struct PasswordMaker). -/
structure PasswordMaker where
  length : Nat
  exclude_similar : Bool
  include_whitespace_in_candidate : Bool
  lowercase : Classifier
  uppercase : Classifier
  number : Classifier
  symbol : Classifier
  others : List Classifier
  deriving Repr, DecidableEq, Inhabited

/-- The six standalone strings removed by the exclude_similar filter. -/
def isSimilarStr (c : String) : Bool :=
  c == "i" || c == "l" || c == "1" || c == "o" || c == "0" || c == "O"

/-- PasswordMaker::candidates: concatenate the classifier pools in source
order (lowercase, uppercase, number, symbol, others), optionally append a
single space, then drop the similar characters when exclude_similar is
set. -/
def PasswordMaker.candidates (m : PasswordMaker) : List String :=
  let cs := m.lowercase.candidates ++ m.uppercase.candidates ++
    m.number.candidates ++ m.symbol.candidates ++
    (m.others.map Classifier.candidates).flatten
  let cs := if m.include_whitespace_in_candidate then cs ++ [" "] else cs
  if m.exclude_similar then cs.filter (fun c => !isSimilarStr c) else cs

/-- The error message produced by generate when the assembled pool is empty. -/
def noCandidatesMessage : String :=
  "No candidates for the password. Please set the candidates for the password."

/-- One named-classifier check of PasswordMaker::validate. -/
def checkClassifier (c : Classifier) (name : String) : Except String Unit :=
  if c.candidates = [] ∧ 0 < c.minimum_count then
    Except.error (name ++ " is empty, but the minimum number of characters is set to "
      ++ toString c.minimum_count ++ ". Please set the minimum number of characters to 0.")
  else Except.ok ()

/-- The loop of PasswordMaker::validate over the other classifiers. -/
def validateOthers : Nat → List Classifier → Except String Unit
  | _, [] => Except.ok ()
  | i, c :: rest =>
    if c.candidates = [] ∧ 0 < c.minimum_count then
      Except.error ("Other characters at index " ++ toString i
        ++ " is empty, but the minimum number of characters is set to "
        ++ toString c.minimum_count ++ ". Please set the minimum number of characters to 0.")
    else validateOthers (i + 1) rest

/-- The total of the minimum counts as an unbounded natural number, in the
summation order of the source.  The source computes this total in u32
(once at lib.rs:189-193 for validate and once at lib.rs:211-217 for the
overwrite count): a debug build panics when the sum overflows, a release
build wraps it modulo 2^32 (see totalMinU32 below for that faithful
release-mode value).  The two totals agree whenever the mathematical
total fits in u32 (totalMinU32_eq_sumMins); every theorem below that uses
totalMin does so under a `validate = Except.ok ()` hypothesis, which
forces the total to be at most the length, so on u32-representable specs
no overflow can occur there and the idealization is exact. -/
def PasswordMaker.totalMin (m : PasswordMaker) : Nat :=
  m.lowercase.minimum_count + m.uppercase.minimum_count + m.number.minimum_count
    + m.symbol.minimum_count + (m.others.map Classifier.minimum_count).sum

/-- PasswordMaker::validate: reject an empty pool with a positive minimum
(others first, then uppercase, lowercase, number, symbol), then reject a
total minimum exceeding the length. -/
def PasswordMaker.validate (m : PasswordMaker) : Except String Unit :=
  match validateOthers 0 m.others with
  | Except.error e => Except.error e
  | Except.ok _ =>
    match checkClassifier m.uppercase "Uppercases" with
    | Except.error e => Except.error e
    | Except.ok _ =>
      match checkClassifier m.lowercase "Lowercases" with
      | Except.error e => Except.error e
      | Except.ok _ =>
        match checkClassifier m.number "Numbers" with
        | Except.error e => Except.error e
        | Except.ok _ =>
          match checkClassifier m.symbol "Symbols" with
          | Except.error e => Except.error e
          | Except.ok _ =>
            if m.length < m.totalMin then
              Except.error ("The total minimum number of characters is greater than the password length. The total minimum number of characters is "
                ++ toString m.totalMin ++ ", but the password length is " ++ toString m.length)
            else Except.ok ()

/-- The modulus of u32 arithmetic, 2^32. -/
def u32Mod : Nat := 4294967296

/-- Wrapping u32 addition: the release-mode semantics of + on u32 values
(a debug build panics on overflow instead of wrapping). -/
def wrapAdd (a b : Nat) : Nat := (a + b) % u32Mod

/-- The total of the minimum counts exactly as the source computes it in a
release build: a left-associated u32 sum, each addition wrapping modulo
2^32, with the others summed first by Iterator::sum (lib.rs:189-193). -/
def PasswordMaker.totalMinU32 (m : PasswordMaker) : Nat :=
  wrapAdd (wrapAdd (wrapAdd (wrapAdd m.lowercase.minimum_count m.uppercase.minimum_count)
    m.number.minimum_count) m.symbol.minimum_count)
    ((m.others.map Classifier.minimum_count).foldl wrapAdd 0)

/-- PasswordMaker::validate as compiled in a release build, where the u32
total of the minimum counts wraps on overflow: identical to validate
except that the final length check uses the wrapped total.  (A debug
build panics on an overflowing sum, returning neither Ok nor Err.) -/
def PasswordMaker.validateRelease (m : PasswordMaker) : Except String Unit :=
  match validateOthers 0 m.others with
  | Except.error e => Except.error e
  | Except.ok _ =>
    match checkClassifier m.uppercase "Uppercases" with
    | Except.error e => Except.error e
    | Except.ok _ =>
      match checkClassifier m.lowercase "Lowercases" with
      | Except.error e => Except.error e
      | Except.ok _ =>
        match checkClassifier m.number "Numbers" with
        | Except.error e => Except.error e
        | Except.ok _ =>
          match checkClassifier m.symbol "Symbols" with
          | Except.error e => Except.error e
          | Except.ok _ =>
            if m.length < m.totalMinU32 then
              Except.error ("The total minimum number of characters is greater than the password length. The total minimum number of characters is "
                ++ toString m.totalMinU32 ++ ", but the password length is " ++ toString m.length)
            else Except.ok ()

/-- The classifier sequence of overwrite_to_meet_minimum_count:
uppercase, lowercase, number, symbol, then the others in order. -/
def PasswordMaker.classifierList (m : PasswordMaker) : List Classifier :=
  m.uppercase :: m.lowercase :: m.number :: m.symbol :: m.others

/-- Sum of the minimum counts over a classifier sequence. -/
def sumMins (cls : List Classifier) : Nat :=
  (cls.map Classifier.minimum_count).sum

/-- PasswordMaker::replace_characters.  For each index in order: the Rust
code panics when the index reaches the buffer length (modelled as none),
then draws one candidate of the classifier (the unwrap on an empty pool is
again a panic, modelled as none) and overwrites the buffer entry. -/
def replaceCharacters (password : List String) (cl : Classifier)
    (idxs : List Nat) (g : Nat → Nat) : Option (List String) :=
  match idxs with
  | [] => some password
  | i :: rest =>
    if password.length ≤ i then none
    else
      match cl.candidates[g 0 % cl.candidates.length]? with
      | none => none
      | some c => replaceCharacters (password.set i c) cl rest (fun n => g (n + 1))

/-- The loop body of unique_random_numbers: repeatedly draw a value below
max and insert it, first occurrence first, until count distinct values are
held.  Fuel exhaustion, and the panic of gen_range on an empty range, give
none. -/
def urnGo (max count : Nat) (g : Nat → Nat) :
    Nat → Nat → List Nat → Option (List Nat)
  | 0, _, acc => if count ≤ acc.length then some acc else none
  | Nat.succ f, i, acc =>
    if count ≤ acc.length then some acc
    else if max = 0 then none
    else
      urnGo max count g f (i + 1)
        (if (g i % max) ∈ acc then acc else acc ++ [g i % max])

/-- PasswordMaker::unique_random_numbers on the range 0..max. -/
def uniqueRandomNumbers (fuel count max : Nat) (g : Nat → Nat) : Option (List Nat) :=
  urnGo max count g fuel 0 []

/-- The classifier loop of overwrite_to_meet_minimum_count: each classifier
drains its minimum_count leading indices from the shared index list and
overwrites those positions with its own candidates.  Draining more
elements than remain is a panic of Vec::drain, modelled as none. -/
def overwriteLoop (password : List String) (cls : List Classifier)
    (chars : List Nat) (repG : Nat → Nat → Nat) (k : Nat) : Option (List String) :=
  match cls with
  | [] => some password
  | c :: rest =>
    if c.minimum_count ≤ chars.length then
      match replaceCharacters password c (chars.take c.minimum_count) (repG k) with
      | none => none
      | some p => overwriteLoop p rest (chars.drop c.minimum_count) repG (k + 1)
    else none

/-- PasswordMaker::overwrite_to_meet_minimum_count.  The overwrite count
uses totalMin, the idealized total: the source recomputes the same u32
sum here (lib.rs:211-217), and every theorem about this function holds
under a `validate = Except.ok ()` hypothesis, where the total is at most
the length and the u32 and idealized sums agree. -/
def PasswordMaker.overwriteToMeetMinimumCount (m : PasswordMaker)
    (password : List String) (urnG : Nat → Nat) (repG : Nat → Nat → Nat)
    (fuel : Nat) : Option (List String) :=
  match uniqueRandomNumbers fuel (min m.length m.totalMin) password.length urnG with
  | none => none
  | some chars => overwriteLoop password m.classifierList chars repG 0

/-- The initial uniform fill of generate: length entries, each drawn from
the assembled candidate pool (the unwrap is unreachable because the pool
was checked to be non-empty; an arbitrary default stands for it). -/
def fillPassword (m : PasswordMaker) (fillG : Nat → Nat) : List String :=
  (List.range m.length).map
    (fun i => (m.candidates[fillG i % m.candidates.length]?).getD "")

/-- PasswordMaker::generate up to the final concatenation: the password
buffer of grapheme-cluster entries.  fillG drives the initial uniform
fill, urnG the index draws, and repG k the draws of the k-th
replace_characters call. -/
def PasswordMaker.generateList (m : PasswordMaker) (fillG urnG : Nat → Nat)
    (repG : Nat → Nat → Nat) (fuel : Nat) : Option (Except String (List String)) :=
  match m.validate with
  | Except.error e => some (Except.error e)
  | Except.ok _ =>
    if m.candidates.isEmpty then some (Except.error noCandidatesMessage)
    else
      match m.overwriteToMeetMinimumCount (fillPassword m fillG) urnG repG fuel with
      | none => none
      | some p => some (Except.ok p)

/-- PasswordMaker::generate: the concatenation of the buffer entries. -/
def PasswordMaker.generate (m : PasswordMaker) (fillG urnG : Nat → Nat)
    (repG : Nat → Nat → Nat) (fuel : Nat) : Option (Except String String) :=
  (m.generateList fillG urnG repG fuel).map (Except.map String.join)

/-- Lowercase default pool: the letters a to z. -/
def defaultLowercase : List String :=
  (List.range 26).map (fun i => String.mk [Char.ofNat (97 + i)])

/-- Uppercase default pool: the letters A to Z. -/
def defaultUppercase : List String :=
  (List.range 26).map (fun i => String.mk [Char.ofNat (65 + i)])

/-- Number default pool: the digits 0 to 9. -/
def defaultNumber : List String :=
  (List.range 10).map (fun i => toString i)

/-- Symbol default pool: the ASCII punctuation characters in ascending
order, code points 33-47, 58-64, 91-96 and 123-126. -/
def defaultSymbol : List String :=
  ((List.range 15).map (fun i => 33 + i) ++ (List.range 7).map (fun i => 58 + i)
    ++ (List.range 6).map (fun i => 91 + i) ++ (List.range 4).map (fun i => 123 + i)).map
    (fun n => String.mk [Char.ofNat n])

/-- PasswordMaker::default. -/
def defaultPasswordMaker : PasswordMaker where
  length := 16
  exclude_similar := false
  include_whitespace_in_candidate := false
  lowercase := { candidates := defaultLowercase, minimum_count := 1 }
  uppercase := { candidates := defaultUppercase, minimum_count := 1 }
  number := { candidates := defaultNumber, minimum_count := 1 }
  symbol := { candidates := defaultSymbol, minimum_count := 1 }
  others := []

/-! ### Characterization of validate -/

theorem checkClassifier_ok_iff (c : Classifier) (name : String) :
    checkClassifier c name = Except.ok () ↔ ¬(c.candidates = [] ∧ 0 < c.minimum_count) := by
  unfold checkClassifier
  split <;> simp_all

theorem validateOthers_ok_iff (i : Nat) (os : List Classifier) :
    validateOthers i os = Except.ok () ↔
      ∀ c ∈ os, ¬(c.candidates = [] ∧ 0 < c.minimum_count) := by
  induction os generalizing i with
  | nil => simp [validateOthers]
  | cons c rest ih =>
    by_cases h : c.candidates = [] ∧ 0 < c.minimum_count
    · simp only [validateOthers, if_pos h]
      constructor
      · intro hh; exact absurd hh (by simp)
      · intro hall; exact absurd h (hall c (by simp))
    · simp only [validateOthers, if_neg h]
      rw [ih (i + 1)]
      constructor
      · intro hall d hd
        rcases List.mem_cons.1 hd with rfl | hd'
        · exact h
        · exact hall d hd'
      · intro hall d hd
        exact hall d (List.mem_cons_of_mem c hd)

theorem totalMin_eq_sumMins (m : PasswordMaker) :
    m.totalMin = sumMins m.classifierList := by
  simp [PasswordMaker.totalMin, sumMins, PasswordMaker.classifierList]
  omega

theorem validate_ok_iff (m : PasswordMaker) :
    m.validate = Except.ok () ↔
      ((∀ cl ∈ m.classifierList, ¬(cl.candidates = [] ∧ 0 < cl.minimum_count))
        ∧ m.totalMin ≤ m.length) := by
  have hmem : ∀ cl, cl ∈ m.classifierList ↔
      (cl = m.uppercase ∨ cl = m.lowercase ∨ cl = m.number ∨ cl = m.symbol ∨ cl ∈ m.others) := by
    intro cl
    simp [PasswordMaker.classifierList]
  constructor
  · intro h
    unfold PasswordMaker.validate at h
    cases hO : validateOthers 0 m.others with
    | error e => rw [hO] at h; simp at h
    | ok u =>
      cases u
      rw [hO] at h
      cases hU : checkClassifier m.uppercase "Uppercases" with
      | error e => rw [hU] at h; simp at h
      | ok u =>
        cases u
        rw [hU] at h
        cases hL : checkClassifier m.lowercase "Lowercases" with
        | error e => rw [hL] at h; simp at h
        | ok u =>
          cases u
          rw [hL] at h
          cases hN : checkClassifier m.number "Numbers" with
          | error e => rw [hN] at h; simp at h
          | ok u =>
            cases u
            rw [hN] at h
            cases hS : checkClassifier m.symbol "Symbols" with
            | error e => rw [hS] at h; simp at h
            | ok u =>
              cases u
              rw [hS] at h
              by_cases hlt : m.length < m.totalMin
              · rw [if_pos hlt] at h; simp at h
              · refine ⟨fun cl hcl => ?_, Nat.le_of_not_lt hlt⟩
                rcases (hmem cl).1 hcl with rfl | rfl | rfl | rfl | hin
                · exact (checkClassifier_ok_iff _ _).1 hU
                · exact (checkClassifier_ok_iff _ _).1 hL
                · exact (checkClassifier_ok_iff _ _).1 hN
                · exact (checkClassifier_ok_iff _ _).1 hS
                · exact (validateOthers_ok_iff 0 m.others).1 hO cl hin
  · rintro ⟨hcls, hlen⟩
    have hO : validateOthers 0 m.others = Except.ok () :=
      (validateOthers_ok_iff 0 m.others).2
        (fun c hc => hcls c ((hmem c).2 (Or.inr (Or.inr (Or.inr (Or.inr hc))))))
    have hU : checkClassifier m.uppercase "Uppercases" = Except.ok () :=
      (checkClassifier_ok_iff _ _).2 (hcls _ ((hmem _).2 (Or.inl rfl)))
    have hL : checkClassifier m.lowercase "Lowercases" = Except.ok () :=
      (checkClassifier_ok_iff _ _).2 (hcls _ ((hmem _).2 (Or.inr (Or.inl rfl))))
    have hN : checkClassifier m.number "Numbers" = Except.ok () :=
      (checkClassifier_ok_iff _ _).2 (hcls _ ((hmem _).2 (Or.inr (Or.inr (Or.inl rfl)))))
    have hS : checkClassifier m.symbol "Symbols" = Except.ok () :=
      (checkClassifier_ok_iff _ _).2 (hcls _ ((hmem _).2 (Or.inr (Or.inr (Or.inr (Or.inl rfl))))))
    unfold PasswordMaker.validate
    rw [hO, hU, hL, hN, hS]
    simp [Nat.not_lt.mpr hlen]

theorem foldl_wrapAdd_eq_sum :
    ∀ (l : List Nat) (a : Nat), a + l.sum < u32Mod → l.foldl wrapAdd a = a + l.sum := by
  intro l
  induction l with
  | nil => intro a _; simp
  | cons x t ih =>
    intro a h
    simp only [List.foldl_cons, List.sum_cons] at *
    have hax : a + x < u32Mod := by omega
    have h1 : wrapAdd a x = a + x := by
      unfold wrapAdd
      exact Nat.mod_eq_of_lt hax
    rw [h1, ih (a + x) (by omega)]
    omega

/-- The release-mode u32 total agrees with the mathematical total whenever
the latter fits in u32. -/
theorem totalMinU32_eq_sumMins (m : PasswordMaker) (h : sumMins m.classifierList < u32Mod) :
    m.totalMinU32 = sumMins m.classifierList := by
  have hs : sumMins m.classifierList
      = m.uppercase.minimum_count + m.lowercase.minimum_count + m.number.minimum_count
        + m.symbol.minimum_count + (m.others.map Classifier.minimum_count).sum := by
    simp [sumMins, PasswordMaker.classifierList]
    omega
  rw [hs] at h
  have hfold : (m.others.map Classifier.minimum_count).foldl wrapAdd 0
      = (m.others.map Classifier.minimum_count).sum := by
    have := foldl_wrapAdd_eq_sum (m.others.map Classifier.minimum_count) 0 (by omega)
    simpa using this
  have h1 : m.lowercase.minimum_count + m.uppercase.minimum_count < u32Mod := by omega
  have h2 : m.lowercase.minimum_count + m.uppercase.minimum_count
      + m.number.minimum_count < u32Mod := by omega
  have h3 : m.lowercase.minimum_count + m.uppercase.minimum_count
      + m.number.minimum_count + m.symbol.minimum_count < u32Mod := by omega
  have h4 : m.lowercase.minimum_count + m.uppercase.minimum_count
      + m.number.minimum_count + m.symbol.minimum_count
      + (m.others.map Classifier.minimum_count).sum < u32Mod := by omega
  unfold PasswordMaker.totalMinU32
  rw [hfold]
  unfold wrapAdd
  rw [Nat.mod_eq_of_lt h1, Nat.mod_eq_of_lt h2, Nat.mod_eq_of_lt h3,
    Nat.mod_eq_of_lt h4, hs]
  omega

theorem validateRelease_ok_iff (m : PasswordMaker) :
    m.validateRelease = Except.ok () ↔
      ((∀ cl ∈ m.classifierList, ¬(cl.candidates = [] ∧ 0 < cl.minimum_count))
        ∧ m.totalMinU32 ≤ m.length) := by
  have hmem : ∀ cl, cl ∈ m.classifierList ↔
      (cl = m.uppercase ∨ cl = m.lowercase ∨ cl = m.number ∨ cl = m.symbol ∨ cl ∈ m.others) := by
    intro cl
    simp [PasswordMaker.classifierList]
  constructor
  · intro h
    unfold PasswordMaker.validateRelease at h
    cases hO : validateOthers 0 m.others with
    | error e => rw [hO] at h; simp at h
    | ok u =>
      cases u
      rw [hO] at h
      cases hU : checkClassifier m.uppercase "Uppercases" with
      | error e => rw [hU] at h; simp at h
      | ok u =>
        cases u
        rw [hU] at h
        cases hL : checkClassifier m.lowercase "Lowercases" with
        | error e => rw [hL] at h; simp at h
        | ok u =>
          cases u
          rw [hL] at h
          cases hN : checkClassifier m.number "Numbers" with
          | error e => rw [hN] at h; simp at h
          | ok u =>
            cases u
            rw [hN] at h
            cases hS : checkClassifier m.symbol "Symbols" with
            | error e => rw [hS] at h; simp at h
            | ok u =>
              cases u
              rw [hS] at h
              by_cases hlt : m.length < m.totalMinU32
              · rw [if_pos hlt] at h; simp at h
              · refine ⟨fun cl hcl => ?_, Nat.le_of_not_lt hlt⟩
                rcases (hmem cl).1 hcl with rfl | rfl | rfl | rfl | hin
                · exact (checkClassifier_ok_iff _ _).1 hU
                · exact (checkClassifier_ok_iff _ _).1 hL
                · exact (checkClassifier_ok_iff _ _).1 hN
                · exact (checkClassifier_ok_iff _ _).1 hS
                · exact (validateOthers_ok_iff 0 m.others).1 hO cl hin
  · rintro ⟨hcls, hlen⟩
    have hO : validateOthers 0 m.others = Except.ok () :=
      (validateOthers_ok_iff 0 m.others).2
        (fun c hc => hcls c ((hmem c).2 (Or.inr (Or.inr (Or.inr (Or.inr hc))))))
    have hU : checkClassifier m.uppercase "Uppercases" = Except.ok () :=
      (checkClassifier_ok_iff _ _).2 (hcls _ ((hmem _).2 (Or.inl rfl)))
    have hL : checkClassifier m.lowercase "Lowercases" = Except.ok () :=
      (checkClassifier_ok_iff _ _).2 (hcls _ ((hmem _).2 (Or.inr (Or.inl rfl))))
    have hN : checkClassifier m.number "Numbers" = Except.ok () :=
      (checkClassifier_ok_iff _ _).2 (hcls _ ((hmem _).2 (Or.inr (Or.inr (Or.inl rfl)))))
    have hS : checkClassifier m.symbol "Symbols" = Except.ok () :=
      (checkClassifier_ok_iff _ _).2 (hcls _ ((hmem _).2 (Or.inr (Or.inr (Or.inr (Or.inl rfl))))))
    unfold PasswordMaker.validateRelease
    rw [hO, hU, hL, hN, hS]
    simp [Nat.not_lt.mpr hlen]

instance exceptDecidableEq {ε α : Type} [DecidableEq ε] [DecidableEq α] :
    DecidableEq (Except ε α) := fun a b =>
  match a, b with
  | Except.error x, Except.error y => decidable_of_iff (x = y) (by simp)
  | Except.ok x, Except.ok y => decidable_of_iff (x = y) (by simp)
  | Except.error _, Except.ok _ => isFalse (by simp)
  | Except.ok _, Except.error _ => isFalse (by simp)

theorem exists_error_iff_ne_ok (r : Except String Unit) :
    (∃ e, r = Except.error e) ↔ r ≠ Except.ok () := by
  cases r with
  | error e => simp
  | ok u => cases u; simp

/-! ### Properties of replace_characters -/

theorem replaceCharacters_length {cl : Classifier} :
    ∀ (idxs : List Nat) (p : List String) (g : Nat → Nat) (p' : List String),
      replaceCharacters p cl idxs g = some p' → p'.length = p.length := by
  intro idxs
  induction idxs with
  | nil =>
    intro p g p' h
    simp only [replaceCharacters] at h
    cases h
    rfl
  | cons i rest ih =>
    intro p g p' h
    simp only [replaceCharacters] at h
    split at h
    · simp at h
    · cases hg : cl.candidates[g 0 % cl.candidates.length]? with
      | none => rw [hg] at h; simp at h
      | some c =>
        rw [hg] at h
        have h2 := ih (p.set i c) (fun n => g (n + 1)) p' h
        simpa using h2

theorem replaceCharacters_not_mem {cl : Classifier} :
    ∀ (idxs : List Nat) (p : List String) (g : Nat → Nat) (p' : List String),
      replaceCharacters p cl idxs g = some p' →
      ∀ j, j ∉ idxs → p'[j]? = p[j]? := by
  intro idxs
  induction idxs with
  | nil =>
    intro p g p' h j _
    simp only [replaceCharacters] at h
    cases h
    rfl
  | cons i rest ih =>
    intro p g p' h j hj
    have hji : j ≠ i := by
      intro e
      exact hj (e ▸ List.mem_cons_self i rest)
    have hjr : j ∉ rest := fun hr => hj (List.mem_cons_of_mem i hr)
    simp only [replaceCharacters] at h
    split at h
    · simp at h
    · cases hg : cl.candidates[g 0 % cl.candidates.length]? with
      | none => rw [hg] at h; simp at h
      | some c =>
        rw [hg] at h
        have h2 := ih (p.set i c) (fun n => g (n + 1)) p' h j hjr
        rw [h2, List.getElem?_set_ne (Ne.symm hji)]

theorem replaceCharacters_mem {cl : Classifier} :
    ∀ (idxs : List Nat) (p : List String) (g : Nat → Nat) (p' : List String),
      replaceCharacters p cl idxs g = some p' →
      ∀ j ∈ idxs, ∃ c ∈ cl.candidates, p'[j]? = some c := by
  intro idxs
  induction idxs with
  | nil =>
    intro p g p' _ j hj
    exact absurd hj (by simp)
  | cons i rest ih =>
    intro p g p' h j hj
    simp only [replaceCharacters] at h
    split at h
    · simp at h
    · rename_i hlen
      have hilt : i < p.length := Nat.lt_of_not_le hlen
      cases hg : cl.candidates[g 0 % cl.candidates.length]? with
      | none => rw [hg] at h; simp at h
      | some c =>
        rw [hg] at h
        have hcmem : c ∈ cl.candidates := by
          obtain ⟨hlt, he⟩ := List.getElem?_eq_some.1 hg
          exact he ▸ List.getElem_mem hlt
        by_cases hjr : j ∈ rest
        · exact ih (p.set i c) (fun n => g (n + 1)) p' h j hjr
        · have hji : j = i := by
            rcases List.mem_cons.1 hj with e | hr
            · exact e
            · exact absurd hr hjr
          subst hji
          have h2 := replaceCharacters_not_mem rest (p.set j c) (fun n => g (n + 1)) p' h j hjr
          refine ⟨c, hcmem, ?_⟩
          rw [h2, List.getElem?_set_self (by simpa using hilt)]

theorem replaceCharacters_isSome {cl : Classifier} :
    ∀ (idxs : List Nat) (p : List String) (g : Nat → Nat),
      (∀ j ∈ idxs, j < p.length) → (idxs ≠ [] → cl.candidates ≠ []) →
      ∃ p', replaceCharacters p cl idxs g = some p' := by
  intro idxs
  induction idxs with
  | nil => intro p g _ _; exact ⟨p, rfl⟩
  | cons i rest ih =>
    intro p g hb hc
    have hcand : cl.candidates ≠ [] := hc (by simp)
    have hlen : 0 < cl.candidates.length := List.length_pos.2 hcand
    have hmod : g 0 % cl.candidates.length < cl.candidates.length := Nat.mod_lt _ hlen
    have hilt : i < p.length := hb i (List.mem_cons_self i rest)
    obtain ⟨p', hp'⟩ := ih (p.set i (cl.candidates[g 0 % cl.candidates.length])) (fun n => g (n + 1))
      (fun j hj => by simpa using hb j (List.mem_cons_of_mem i hj))
      (fun _ => hcand)
    refine ⟨p', ?_⟩
    simp only [replaceCharacters]
    rw [if_neg (Nat.not_le.2 hilt), List.getElem?_eq_getElem hmod]
    exact hp'

/-! ### Properties of unique_random_numbers -/

theorem urnGo_spec {max count : Nat} {g : Nat → Nat} :
    ∀ (fuel i : Nat) (acc ns : List Nat),
      urnGo max count g fuel i acc = some ns →
      acc.Nodup → (∀ x ∈ acc, x < max) → acc.length ≤ count →
      ns.length = count ∧ ns.Nodup ∧ ∀ x ∈ ns, x < max := by
  intro fuel
  induction fuel with
  | zero =>
    intro i acc ns h hnd hb hle
    simp only [urnGo] at h
    split at h
    · cases h
      exact ⟨Nat.le_antisymm hle (by assumption), hnd, hb⟩
    · simp at h
  | succ f ih =>
    intro i acc ns h hnd hb hle
    simp only [urnGo] at h
    split at h
    · cases h
      exact ⟨Nat.le_antisymm hle (by assumption), hnd, hb⟩
    · rename_i hnotdone
      split at h
      · simp at h
      · rename_i hmax
        have hmaxpos : 0 < max := Nat.pos_of_ne_zero hmax
        have hlt : acc.length < count := Nat.lt_of_not_le hnotdone
        by_cases hmem : (g i % max) ∈ acc
        · rw [if_pos hmem] at h
          exact ih (i + 1) acc ns h hnd hb hle
        · rw [if_neg hmem] at h
          refine ih (i + 1) (acc ++ [g i % max]) ns h ?_ ?_ ?_
          · rw [List.nodup_append]
            exact ⟨hnd, List.nodup_singleton _, by
              intro a ha hs
              rw [List.mem_singleton] at hs
              exact hmem (hs ▸ ha)⟩
          · intro x hx
            rcases List.mem_append.1 hx with hx | hx
            · exact hb x hx
            · rw [List.mem_singleton] at hx
              exact hx ▸ Nat.mod_lt _ hmaxpos
          · rw [List.length_append, List.length_singleton]
            omega

theorem uniqueRandomNumbers_spec {fuel count max : Nat} {g : Nat → Nat} {ns : List Nat}
    (h : uniqueRandomNumbers fuel count max g = some ns) :
    ns.length = count ∧ ns.Nodup ∧ ∀ x ∈ ns, x < max :=
  urnGo_spec fuel 0 [] ns h (List.nodup_nil) (by simp) (by simp)

/-! ### Properties of the overwrite loop -/

theorem sumMins_cons (c : Classifier) (rest : List Classifier) :
    sumMins (c :: rest) = c.minimum_count + sumMins rest := by
  simp [sumMins]

theorem overwriteLoop_length :
    ∀ (cls : List Classifier) (p : List String) (chars : List Nat)
      (repG : Nat → Nat → Nat) (k : Nat) (l : List String),
      overwriteLoop p cls chars repG k = some l → l.length = p.length := by
  intro cls
  induction cls with
  | nil =>
    intro p chars repG k l h
    simp only [overwriteLoop] at h
    cases h
    rfl
  | cons c rest ih =>
    intro p chars repG k l h
    simp only [overwriteLoop] at h
    split at h
    · cases hr : replaceCharacters p c (chars.take c.minimum_count) (repG k) with
      | none => rw [hr] at h; simp at h
      | some p1 =>
        rw [hr] at h
        have h1 := replaceCharacters_length _ _ _ _ hr
        have h2 := ih p1 (chars.drop c.minimum_count) repG (k + 1) l h
        omega
    · simp at h

theorem overwriteLoop_not_mem :
    ∀ (cls : List Classifier) (p : List String) (chars : List Nat)
      (repG : Nat → Nat → Nat) (k : Nat) (l : List String),
      overwriteLoop p cls chars repG k = some l →
      ∀ j, j ∉ chars → l[j]? = p[j]? := by
  intro cls
  induction cls with
  | nil =>
    intro p chars repG k l h j _
    simp only [overwriteLoop] at h
    cases h
    rfl
  | cons c rest ih =>
    intro p chars repG k l h j hj
    simp only [overwriteLoop] at h
    split at h
    · cases hr : replaceCharacters p c (chars.take c.minimum_count) (repG k) with
      | none => rw [hr] at h; simp at h
      | some p1 =>
        rw [hr] at h
        have hjt : j ∉ chars.take c.minimum_count :=
          fun hm => hj ((List.take_sublist _ _).mem hm)
        have hjd : j ∉ chars.drop c.minimum_count :=
          fun hm => hj ((List.drop_sublist _ _).mem hm)
        have h1 := replaceCharacters_not_mem _ _ _ _ hr j hjt
        have h2 := ih p1 (chars.drop c.minimum_count) repG (k + 1) l h j hjd
        rw [h2, h1]
    · simp at h

theorem overwriteLoop_isSome :
    ∀ (cls : List Classifier) (p : List String) (chars : List Nat)
      (repG : Nat → Nat → Nat) (k : Nat),
      (∀ j ∈ chars, j < p.length) → sumMins cls ≤ chars.length →
      (∀ cl ∈ cls, 0 < cl.minimum_count → cl.candidates ≠ []) →
      ∃ l, overwriteLoop p cls chars repG k = some l := by
  intro cls
  induction cls with
  | nil => intro p chars repG k _ _ _; exact ⟨p, rfl⟩
  | cons c rest ih =>
    intro p chars repG k hb hsum hcls
    rw [sumMins_cons] at hsum
    have hle : c.minimum_count ≤ chars.length := by omega
    obtain ⟨p1, hp1⟩ := @replaceCharacters_isSome c (chars.take c.minimum_count) p (repG k)
      (fun j hj => hb j ((List.take_sublist _ _).mem hj))
      (fun hne => hcls c (List.mem_cons_self c rest) (by
        rcases Nat.eq_zero_or_pos c.minimum_count with h0 | h0
        · exact absurd (by simp [h0]) hne
        · exact h0))
    have hlen1 : p1.length = p.length := replaceCharacters_length _ _ _ _ hp1
    obtain ⟨l, hl⟩ := ih p1 (chars.drop c.minimum_count) repG (k + 1)
      (fun j hj => hlen1 ▸ hb j ((List.drop_sublist _ _).mem hj))
      (by rw [List.length_drop]; omega)
      (fun cl hcl => hcls cl (List.mem_cons_of_mem c hcl))
    refine ⟨l, ?_⟩
    simp only [overwriteLoop]
    rw [if_pos hle, hp1]
    exact hl

/-! ### Counting entries at distinct positions -/

theorem countP_eq_card_filter_range (l : List String) (Q : String → Bool) :
    l.countP Q = ((Finset.range l.length).filter (fun i => Q (l.getD i "") = true)).card := by
  induction l using List.reverseRecOn with
  | nil => simp
  | append_singleton l a ih =>
    rw [List.countP_append, List.countP_singleton]
    have hlen : (l ++ [a]).length = l.length + 1 := by simp
    rw [hlen, Finset.range_succ, Finset.filter_insert]
    have hgetl : ∀ i ∈ Finset.range l.length, (l ++ [a]).getD i "" = l.getD i "" := by
      intro i hi
      rw [List.getD_eq_getElem?_getD, List.getD_eq_getElem?_getD,
        List.getElem?_append, if_pos (Finset.mem_range.1 hi)]
    have hfid : Finset.filter (fun i => Q ((l ++ [a]).getD i "") = true) (Finset.range l.length)
        = Finset.filter (fun i => Q (l.getD i "") = true) (Finset.range l.length) :=
      Finset.filter_congr (fun i hi => by rw [hgetl i hi])
    have hgeta : (l ++ [a]).getD l.length "" = a := by
      rw [List.getD_eq_getElem?_getD, List.getElem?_concat_length]
      rfl
    have hna : l.length ∉ Finset.filter (fun i => Q (l.getD i "") = true) (Finset.range l.length) :=
      fun hmem => by simpa using Finset.mem_range.1 (Finset.mem_of_mem_filter _ hmem)
    rw [hgeta, hfid]
    by_cases hQ : Q a = true
    · rw [if_pos hQ, if_pos hQ, Finset.card_insert_of_not_mem hna, ih]
    · rw [if_neg hQ, if_neg hQ, ih]
      omega

theorem length_le_countP_of_nodup (l : List String) (Q : String → Bool) (idxs : List Nat)
    (hnd : idxs.Nodup)
    (h : ∀ j ∈ idxs, ∃ c, l[j]? = some c ∧ Q c = true) :
    idxs.length ≤ l.countP Q := by
  rw [countP_eq_card_filter_range]
  have hsub : idxs.toFinset ⊆
      (Finset.range l.length).filter (fun i => Q (l.getD i "") = true) := by
    intro j hj
    obtain ⟨c, hc, hQ⟩ := h j (List.mem_toFinset.1 hj)
    have hlt : j < l.length := (List.getElem?_eq_some.1 hc).1
    refine Finset.mem_filter.2 ⟨Finset.mem_range.2 hlt, ?_⟩
    rw [List.getD_eq_getElem?_getD, hc]
    exact hQ
  have hcard := Finset.card_le_card hsub
  rwa [List.card_toFinset, hnd.dedup] at hcard

theorem overwriteLoop_countP :
    ∀ (cls : List Classifier) (p : List String) (chars : List Nat)
      (repG : Nat → Nat → Nat) (k : Nat) (l : List String),
      overwriteLoop p cls chars repG k = some l →
      chars.Nodup → (∀ x ∈ chars, x < p.length) → sumMins cls ≤ chars.length →
      ∀ cl ∈ cls, cl.minimum_count ≤ l.countP (fun s => decide (s ∈ cl.candidates)) := by
  intro cls
  induction cls with
  | nil =>
    intro p chars repG k l _ _ _ _ cl hcl
    exact absurd hcl (by simp)
  | cons c rest ih =>
    intro p chars repG k l h hnd hb hsum cl hcl
    rw [sumMins_cons] at hsum
    have hle : c.minimum_count ≤ chars.length := by omega
    simp only [overwriteLoop] at h
    rw [if_pos hle] at h
    cases hr : replaceCharacters p c (chars.take c.minimum_count) (repG k) with
    | none => rw [hr] at h; simp at h
    | some p1 =>
      rw [hr] at h
      have hlen1 : p1.length = p.length := replaceCharacters_length _ _ _ _ hr
      have hdisj : ∀ j ∈ chars.take c.minimum_count, j ∉ chars.drop c.minimum_count := by
        have hnd2 : (chars.take c.minimum_count ++ chars.drop c.minimum_count).Nodup := by
          rw [List.take_append_drop]
          exact hnd
        exact (List.nodup_append.1 hnd2).2.2
      rcases List.mem_cons.1 hcl with rfl | hrest
      · have htake_len : (chars.take cl.minimum_count).length = cl.minimum_count := by
          rw [List.length_take]
          omega
        rw [← htake_len]
        refine length_le_countP_of_nodup l _ _ ((List.take_sublist _ _).nodup hnd) ?_
        intro j hj
        obtain ⟨ch, hchmem, hch⟩ := replaceCharacters_mem _ _ _ _ hr j hj
        have hjd : j ∉ chars.drop cl.minimum_count := hdisj j hj
        have hle2 := overwriteLoop_not_mem rest p1 _ repG (k + 1) l h j hjd
        exact ⟨ch, by rw [hle2, hch], by simpa using hchmem⟩
      · refine ih p1 (chars.drop c.minimum_count) repG (k + 1) l h
          ((List.drop_sublist _ _).nodup hnd) ?_ ?_ cl hrest
        · intro x hx
          rw [hlen1]
          exact hb x ((List.drop_sublist _ _).mem hx)
        · rw [List.length_drop]
          omega

/-! ### Deconstructing a successful generate run -/

theorem fillPassword_length (m : PasswordMaker) (fillG : Nat → Nat) :
    (fillPassword m fillG).length = m.length := by
  simp [fillPassword]

theorem generateList_ok_elim {m : PasswordMaker} {f u : Nat → Nat} {r : Nat → Nat → Nat}
    {fuel : Nat} {l : List String}
    (h : m.generateList f u r fuel = some (Except.ok l)) :
    m.validate = Except.ok () ∧ m.candidates ≠ [] ∧
      ∃ ns, uniqueRandomNumbers fuel (min m.length m.totalMin) m.length u = some ns ∧
        overwriteLoop (fillPassword m f) m.classifierList ns r 0 = some l := by
  unfold PasswordMaker.generateList PasswordMaker.overwriteToMeetMinimumCount at h
  rw [fillPassword_length] at h
  split at h
  · simp at h
  · rename_i u' hv
    split at h
    · simp at h
    · rename_i hemp
      split at h
      · simp at h
      · rename_i p hmatch
        simp only [Option.some.injEq, Except.ok.injEq] at h
        subst h
        cases u'
        split at hmatch
        · simp at hmatch
        · rename_i ns hurn
          exact ⟨hv, by simpa using hemp, ns, hurn, hmatch⟩

/-- Claim C3: whenever generate succeeds, the password buffer has exactly
length entries (each a complete candidate grapheme cluster), and the
returned string is their concatenation. -/
theorem c3_length_invariant {m : PasswordMaker} {f u : Nat → Nat} {r : Nat → Nat → Nat}
    {fuel : Nat} {l : List String}
    (h : m.generateList f u r fuel = some (Except.ok l)) :
    l.length = m.length ∧ m.generate f u r fuel = some (Except.ok (String.join l)) := by
  obtain ⟨hv, hc, ns, hurn, hol⟩ := generateList_ok_elim h
  refine ⟨?_, ?_⟩
  · rw [overwriteLoop_length _ _ _ _ _ _ hol, fillPassword_length]
  · unfold PasswordMaker.generate
    rw [h]
    rfl

/-- Claim C1: whenever generate succeeds, the password buffer contains,
for each of the classifiers uppercase, lowercase, number, symbol and each
entry of others, at least minimum_count entries belonging to that
classifier candidate list. -/
theorem c1_minimum_count_invariant {m : PasswordMaker} {f u : Nat → Nat} {r : Nat → Nat → Nat}
    {fuel : Nat} {l : List String}
    (h : m.generateList f u r fuel = some (Except.ok l)) :
    m.generate f u r fuel = some (Except.ok (String.join l))
    ∧ ∀ cl ∈ m.classifierList,
      cl.minimum_count ≤ l.countP (fun s => decide (s ∈ cl.candidates)) := by
  refine ⟨by unfold PasswordMaker.generate; rw [h]; rfl, ?_⟩
  obtain ⟨hv, hc, ns, hurn, hol⟩ := generateList_ok_elim h
  obtain ⟨hlen, hnd, hb⟩ := uniqueRandomNumbers_spec hurn
  have hval := (validate_ok_iff m).1 hv
  have hmin : min m.length m.totalMin = m.totalMin := min_eq_right hval.2
  have hsum : sumMins m.classifierList ≤ ns.length := by
    rw [hlen, hmin, ← totalMin_eq_sumMins]
  have hbp : ∀ x ∈ ns, x < (fillPassword m f).length := by
    rw [fillPassword_length]
    exact hb
  exact overwriteLoop_countP _ _ _ _ _ _ hol hnd hbp hsum

/-- A spec with two minimum counts of 2^31: their u32 sum wraps to 0 in a
release build, so the mathematical total 2^32 exceeds the length 0 while
the wrapped total does not.  (A debug build panics on this sum instead of
returning either Ok or the claimed error.) -/
def overflowSpec : PasswordMaker where
  length := 0
  exclude_similar := false
  include_whitespace_in_candidate := false
  lowercase := { candidates := ["a"], minimum_count := 2147483648 }
  uppercase := { candidates := ["A"], minimum_count := 2147483648 }
  number := { candidates := [], minimum_count := 0 }
  symbol := { candidates := [], minimum_count := 0 }
  others := []

/-- Counterexample to claim C4 as stated: at overflowSpec no classifier
has an empty pool with a positive minimum and the sum of all
minimum_count values (2^32) exceeds the length (0), yet validate as
compiled in a release build returns Ok, because the u32 sum it computes
wraps to 0. -/
theorem c4_overflow_counterexample :
    overflowSpec.validateRelease = Except.ok ()
    ∧ overflowSpec.length < sumMins overflowSpec.classifierList
    ∧ (∀ cl ∈ overflowSpec.classifierList, ¬(cl.candidates = [] ∧ 0 < cl.minimum_count))
    ∧ overflowSpec.totalMinU32 = 0 := by
  refine ⟨by decide, by decide, by decide, by decide⟩

/-- Claim C4 amended: validate errors exactly when some classifier
(uppercase, lowercase, number, symbol or one of the others) has an empty
candidate list with a positive minimum count, or when the length is less
than the total of the minimum counts as the source computes it — a u32
sum, which wraps modulo 2^32 in release builds; that wrapped total equals
the mathematical sum whenever the latter fits in u32, and in particular
for the default settings (four classifiers with minimum 1 each) length 3
is rejected while lengths 4 and 5 are accepted. -/
theorem c4_validate_error_iff :
    (∀ m : PasswordMaker,
      (∃ e, m.validateRelease = Except.error e) ↔
        ((∃ cl ∈ m.classifierList, cl.candidates = [] ∧ 0 < cl.minimum_count)
          ∨ m.length < m.totalMinU32))
    ∧ (∀ m : PasswordMaker, sumMins m.classifierList < u32Mod →
        m.totalMinU32 = sumMins m.classifierList)
    ∧ (∃ e, ({ defaultPasswordMaker with length := 3 }).validateRelease = Except.error e)
    ∧ ({ defaultPasswordMaker with length := 4 }).validateRelease = Except.ok ()
    ∧ ({ defaultPasswordMaker with length := 5 }).validateRelease = Except.ok () := by
  refine ⟨fun m => ?_, totalMinU32_eq_sumMins, ?_, by decide, by decide⟩
  · rw [exists_error_iff_ne_ok, Ne, validateRelease_ok_iff]
    constructor
    · intro h
      by_contra hc
      push_neg at hc
      refine h ⟨fun cl hcl hbad => ?_, hc.2⟩
      have h2 := hc.1 cl hcl hbad.1
      omega
    · rintro (⟨cl, hcl, hbad⟩ | hlen) ⟨hall, hle⟩
      · exact hall cl hcl hbad
      · omega
  · exact (exists_error_iff_ne_ok _).2 (by decide)

/-- Witness for the amended claim C4: at the default spec the total fits
in u32, so the wrapped and mathematical totals coincide. -/
theorem c4_validate_error_iff_witness :
    defaultPasswordMaker.totalMinU32 = sumMins defaultPasswordMaker.classifierList :=
  c4_validate_error_iff.2.1 defaultPasswordMaker (by decide)

/-! ### Concrete specs used as witnesses and counterexamples -/

/-- A one-letter spec: one lowercase candidate with minimum 1, length 1. -/
def witnessSingle : PasswordMaker where
  length := 1
  exclude_similar := false
  include_whitespace_in_candidate := false
  lowercase := { candidates := ["a"], minimum_count := 1 }
  uppercase := { candidates := [], minimum_count := 0 }
  number := { candidates := [], minimum_count := 0 }
  symbol := { candidates := [], minimum_count := 0 }
  others := []

/-- A two-letter spec with two mandatory classifiers. -/
def witnessDuo : PasswordMaker where
  length := 2
  exclude_similar := false
  include_whitespace_in_candidate := false
  lowercase := { candidates := ["a"], minimum_count := 1 }
  uppercase := { candidates := ["B"], minimum_count := 1 }
  number := { candidates := [], minimum_count := 0 }
  symbol := { candidates := [], minimum_count := 0 }
  others := []

/-- Witness for claim C3, instantiated at a concrete one-letter spec. -/
theorem c3_length_invariant_witness :
    witnessSingle.generateList (fun _ => 0) (fun _ => 0) (fun _ _ => 0) 1
        = some (Except.ok ["a"])
    ∧ (["a"] : List String).length = witnessSingle.length
    ∧ witnessSingle.generate (fun _ => 0) (fun _ => 0) (fun _ _ => 0) 1
        = some (Except.ok (String.join ["a"])) :=
  ⟨by decide,
    (@c3_length_invariant witnessSingle (fun _ => 0) (fun _ => 0) (fun _ _ => 0) 1 ["a"]
      (by decide)).1,
    (@c3_length_invariant witnessSingle (fun _ => 0) (fun _ => 0) (fun _ _ => 0) 1 ["a"]
      (by decide)).2⟩

/-- Witness for claim C1, instantiated at a concrete two-letter spec. -/
theorem c1_minimum_count_invariant_witness :
    witnessDuo.generateList (fun _ => 0) (fun i => i) (fun _ _ => 0) 2
        = some (Except.ok ["B", "a"])
    ∧ witnessDuo.generate (fun _ => 0) (fun i => i) (fun _ _ => 0) 2
        = some (Except.ok (String.join ["B", "a"]))
    ∧ ∀ cl ∈ witnessDuo.classifierList,
        cl.minimum_count ≤ (["B", "a"] : List String).countP
          (fun s => decide (s ∈ cl.candidates)) :=
  ⟨by decide,
    (@c1_minimum_count_invariant witnessDuo (fun _ => 0) (fun i => i) (fun _ _ => 0) 2
      ["B", "a"] (by decide)).1,
    (@c1_minimum_count_invariant witnessDuo (fun _ => 0) (fun i => i) (fun _ _ => 0) 2
      ["B", "a"] (by decide)).2⟩

/-- A spec exposing the exclude_similar leak: the lowercase pool consists
of the single similar letter i with minimum 1. -/
def excludeSimilarBad : PasswordMaker where
  length := 1
  exclude_similar := true
  include_whitespace_in_candidate := false
  lowercase := { candidates := ["i"], minimum_count := 1 }
  uppercase := { candidates := ["A"], minimum_count := 0 }
  number := { candidates := [], minimum_count := 0 }
  symbol := { candidates := [], minimum_count := 0 }
  others := []

/-- Claim C2 is violated by the code: exclude_similar filters only the
merged pool, while the overwrite phase draws from the raw classifier
pools, so a valid spec whose lowercase pool is exactly the string i
generates the password i even though exclude_similar is set. -/
theorem c2_exclude_similar_code_bug :
    excludeSimilarBad.exclude_similar = true
    ∧ excludeSimilarBad.validate = Except.ok ()
    ∧ isSimilarStr "i" = true
    ∧ excludeSimilarBad.generate (fun _ => 0) (fun _ => 0) (fun _ _ => 0) 1
        = some (Except.ok "i") := by
  refine ⟨rfl, by decide, by decide, by decide⟩

/-- The all-empty zero-length spec of claim C5. -/
def emptyPoolZeroLen : PasswordMaker where
  length := 0
  exclude_similar := false
  include_whitespace_in_candidate := false
  lowercase := { candidates := [], minimum_count := 0 }
  uppercase := { candidates := [], minimum_count := 0 }
  number := { candidates := [], minimum_count := 0 }
  symbol := { candidates := [], minimum_count := 0 }
  others := []

/-- Counterexample to claim C5: with length 0, every minimum 0 and an
empty assembled pool, validation passes yet generate returns the
NoCandidates error instead of the empty string. -/
theorem c5_counterexample :
    emptyPoolZeroLen.length = 0
    ∧ emptyPoolZeroLen.validate = Except.ok ()
    ∧ emptyPoolZeroLen.candidates = []
    ∧ emptyPoolZeroLen.generate (fun _ => 0) (fun _ => 0) (fun _ _ => 0) 0
        = some (Except.error noCandidatesMessage)
    ∧ emptyPoolZeroLen.generate (fun _ => 0) (fun _ => 0) (fun _ _ => 0) 0
        ≠ some (Except.ok "") := by
  refine ⟨rfl, by decide, by decide, by decide, by decide⟩

/-! ### The amended claim C5 -/

theorem uniqueRandomNumbers_zero_count (fuel max : Nat) (g : Nat → Nat) :
    uniqueRandomNumbers fuel 0 max g = some [] := by
  cases fuel <;> simp [uniqueRandomNumbers, urnGo]

theorem overwriteLoop_zero_min :
    ∀ (cls : List Classifier) (p : List String) (chars : List Nat)
      (repG : Nat → Nat → Nat) (k : Nat),
      (∀ cl ∈ cls, cl.minimum_count = 0) →
      overwriteLoop p cls chars repG k = some p := by
  intro cls
  induction cls with
  | nil => intro p chars repG k _; rfl
  | cons c rest ih =>
    intro p chars repG k hall
    have hc0 : c.minimum_count = 0 := hall c (List.mem_cons_self c rest)
    simp only [overwriteLoop, hc0]
    rw [if_pos (Nat.zero_le _)]
    simp only [List.take_zero, List.drop_zero, replaceCharacters]
    exact ih p chars repG (k + 1) (fun cl hcl => hall cl (List.mem_cons_of_mem c hcl))

theorem generateList_of_components {m : PasswordMaker} {f u : Nat → Nat}
    {r : Nat → Nat → Nat} {fuel : Nat} {ns : List Nat} {l : List String}
    (hv : m.validate = Except.ok ())
    (hne : m.candidates ≠ [])
    (hurn : uniqueRandomNumbers fuel (min m.length m.totalMin) m.length u = some ns)
    (hol : overwriteLoop (fillPassword m f) m.classifierList ns r 0 = some l) :
    m.generateList f u r fuel = some (Except.ok l) := by
  have hempB : m.candidates.isEmpty = false := by
    simpa using hne
  unfold PasswordMaker.generateList PasswordMaker.overwriteToMeetMinimumCount
  rw [hv]
  simp only [hempB, Bool.false_eq_true, if_false, fillPassword_length, hurn, hol]

/-- Claim C5 amended: after validation succeeds, generate fails with the
NoCandidates error exactly when the assembled pool is empty — regardless
of the length, so the empty pool fails even at length 0; a zero-length
spec whose assembled pool is non-empty succeeds with the empty string. -/
theorem c5_no_candidates_iff (m : PasswordMaker) (f u : Nat → Nat)
    (r : Nat → Nat → Nat) (fuel : Nat) (hv : m.validate = Except.ok ()) :
    ((m.generate f u r fuel = some (Except.error noCandidatesMessage)) ↔ m.candidates = [])
    ∧ (m.length = 0 → m.candidates ≠ [] → m.generate f u r fuel = some (Except.ok "")) := by
  constructor
  · constructor
    · intro h
      by_contra hne
      have hempB : m.candidates.isEmpty = false := by simpa using hne
      unfold PasswordMaker.generate PasswordMaker.generateList at h
      rw [hv] at h
      simp only [hempB, Bool.false_eq_true, if_false] at h
      split at h
      · simp at h
      · simp [Except.map] at h
    · intro hnil
      have hempB : m.candidates.isEmpty = true := by simp [hnil]
      unfold PasswordMaker.generate PasswordMaker.generateList
      rw [hv]
      simp [hempB, Except.map]
  · intro hlen0 hne
    have hval := (validate_ok_iff m).1 hv
    have h0 : m.totalMin = 0 := by omega
    have hall : ∀ cl ∈ m.classifierList, cl.minimum_count = 0 := by
      have hs : sumMins m.classifierList = 0 := by rw [← totalMin_eq_sumMins, h0]
      intro cl hcl
      have : cl.minimum_count ∈ m.classifierList.map Classifier.minimum_count :=
        List.mem_map_of_mem _ hcl
      exact (List.sum_eq_zero_iff.1 hs) _ this
    have hurn : uniqueRandomNumbers fuel (min m.length m.totalMin) m.length u = some [] := by
      rw [hlen0, h0]
      exact uniqueRandomNumbers_zero_count fuel 0 u
    have hfill : fillPassword m f = [] := by
      simp [fillPassword, hlen0]
    have hol : overwriteLoop (fillPassword m f) m.classifierList [] r 0
        = some (fillPassword m f) :=
      overwriteLoop_zero_min m.classifierList _ [] r 0 hall
    have hgl := generateList_of_components hv hne hurn hol
    unfold PasswordMaker.generate
    rw [hgl, hfill]
    rfl

/-- The zero-length, non-empty-pool spec used to witness the amended C5. -/
def witnessZeroLen : PasswordMaker where
  length := 0
  exclude_similar := false
  include_whitespace_in_candidate := false
  lowercase := { candidates := ["a"], minimum_count := 0 }
  uppercase := { candidates := [], minimum_count := 0 }
  number := { candidates := [], minimum_count := 0 }
  symbol := { candidates := [], minimum_count := 0 }
  others := []

/-- Witness for the amended claim C5. -/
theorem c5_no_candidates_iff_witness :
    ((witnessZeroLen.generate (fun _ => 0) (fun _ => 0) (fun _ _ => 0) 0
        = some (Except.error noCandidatesMessage)) ↔ witnessZeroLen.candidates = [])
    ∧ witnessZeroLen.generate (fun _ => 0) (fun _ => 0) (fun _ _ => 0) 0
        = some (Except.ok "") :=
  ⟨(c5_no_candidates_iff witnessZeroLen (fun _ => 0) (fun _ => 0) (fun _ _ => 0) 0
      (by decide)).1,
    (c5_no_candidates_iff witnessZeroLen (fun _ => 0) (fun _ => 0) (fun _ _ => 0) 0
      (by decide)).2 (by decide) (by decide)⟩

/-! ### The index partition of the overwrite engine -/

/-- The per-classifier index lists drained from the shared pool by
overwrite_to_meet_minimum_count, in classifier order: exactly the
take/drop sequence performed by the loop. -/
def classifierSlices : List Classifier → List Nat → List (List Nat)
  | [], _ => []
  | c :: rest, ns => ns.take c.minimum_count :: classifierSlices rest (ns.drop c.minimum_count)

theorem classifierSlices_length (cls : List Classifier) :
    ∀ ns : List Nat, (classifierSlices cls ns).length = cls.length := by
  induction cls with
  | nil => intro ns; rfl
  | cons c rest ih => intro ns; simp [classifierSlices, ih]

theorem classifierSlices_sublist (cls : List Classifier) :
    ∀ ns : List Nat, ∀ s ∈ classifierSlices cls ns, s.Sublist ns := by
  induction cls with
  | nil => intro ns s hs; exact absurd hs (by simp [classifierSlices])
  | cons c rest ih =>
    intro ns s hs
    rcases List.mem_cons.1 hs with rfl | hs'
    · exact List.take_sublist _ _
    · exact (ih (ns.drop c.minimum_count) s hs').trans (List.drop_sublist _ _)

theorem classifierSlices_getD (cls : List Classifier) :
    ∀ (ns : List Nat), sumMins cls ≤ ns.length →
      ∀ k, k < cls.length →
        ((classifierSlices cls ns).getD k []).length
          = (cls.getD k default).minimum_count := by
  induction cls with
  | nil => intro ns _ k hk; exact absurd hk (by simp)
  | cons c rest ih =>
    intro ns hsum k hk
    rw [sumMins_cons] at hsum
    cases k with
    | zero =>
      simp only [classifierSlices, List.getD_cons_zero]
      rw [List.length_take]
      omega
    | succ k =>
      simp only [classifierSlices, List.getD_cons_succ]
      refine ih (ns.drop c.minimum_count) ?_ k (by simpa using hk)
      rw [List.length_drop]
      omega

theorem classifierSlices_flatten (cls : List Classifier) :
    ∀ ns : List Nat, (classifierSlices cls ns).flatten = ns.take (sumMins cls) := by
  induction cls with
  | nil => intro ns; rfl
  | cons c rest ih =>
    intro ns
    simp only [classifierSlices, List.flatten_cons, ih, sumMins_cons]
    rw [List.take_add]

theorem classifierSlices_pairwise_disjoint (cls : List Classifier) :
    ∀ ns : List Nat, ns.Nodup →
      List.Pairwise List.Disjoint (classifierSlices cls ns) := by
  induction cls with
  | nil => intro ns _; exact List.Pairwise.nil
  | cons c rest ih =>
    intro ns hnd
    refine List.Pairwise.cons ?_ (ih (ns.drop c.minimum_count)
      ((List.drop_sublist _ _).nodup hnd))
    intro s hs x hxtake hxs
    have hxdrop : x ∈ ns.drop c.minimum_count :=
      (classifierSlices_sublist rest _ s hs).mem hxs
    have hnd2 : (ns.take c.minimum_count ++ ns.drop c.minimum_count).Nodup := by
      rw [List.take_append_drop]
      exact hnd
    exact (List.nodup_append.1 hnd2).2.2 hxtake hxdrop

/-- Claim C6: given a validated spec and a successful index draw, the
overwrite engine holds exactly min(length, total minimum) pairwise
distinct indices, all below length; the per-classifier drained slices (in
the order uppercase, lowercase, number, symbol, then the others) have
exactly minimum_count entries each, are pairwise disjoint, and exhaust
the drawn list; a zero-minimum classifier receives the empty slice and
its replace_characters call leaves the buffer unchanged. -/
theorem c6_overwrite_partition {m : PasswordMaker} {password : List String}
    {u : Nat → Nat} {fuel : Nat} {ns : List Nat}
    (hv : m.validate = Except.ok ())
    (hlen : password.length = m.length)
    (hurn : uniqueRandomNumbers fuel (min m.length m.totalMin) password.length u = some ns) :
    ns.length = min m.length m.totalMin
    ∧ ns.Nodup
    ∧ (∀ x ∈ ns, x < m.length)
    ∧ (classifierSlices m.classifierList ns).flatten = ns
    ∧ List.Pairwise List.Disjoint (classifierSlices m.classifierList ns)
    ∧ (∀ k, k < m.classifierList.length →
        ((classifierSlices m.classifierList ns).getD k []).length
          = (m.classifierList.getD k default).minimum_count)
    ∧ (∀ k, k < m.classifierList.length →
        (m.classifierList.getD k default).minimum_count = 0 →
        (classifierSlices m.classifierList ns).getD k [] = [])
    ∧ (∀ (p : List String) (cl : Classifier) (g : Nat → Nat),
        replaceCharacters p cl [] g = some p) := by
  obtain ⟨hlen', hnd, hb⟩ := uniqueRandomNumbers_spec hurn
  have hval := (validate_ok_iff m).1 hv
  have hminr : min m.length m.totalMin = m.totalMin := min_eq_right hval.2
  have hsum : sumMins m.classifierList ≤ ns.length := by
    rw [hlen', hminr, ← totalMin_eq_sumMins]
  have hsumeq : sumMins m.classifierList = ns.length := by
    rw [hlen', hminr, totalMin_eq_sumMins]
  have hgetD := classifierSlices_getD m.classifierList ns hsum
  refine ⟨hlen', hnd, fun x hx => hlen ▸ hb x hx, ?_,
    classifierSlices_pairwise_disjoint m.classifierList ns hnd, hgetD, ?_, fun p cl g => rfl⟩
  · rw [classifierSlices_flatten, hsumeq, List.take_length]
  · intro k hk h0
    have := hgetD k hk
    rw [h0] at this
    exact List.length_eq_zero.1 this

/-- Witness for claim C6, instantiated at the default spec with an
identity index stream. -/
theorem c6_overwrite_partition_witness :
    uniqueRandomNumbers 8 (min defaultPasswordMaker.length defaultPasswordMaker.totalMin)
        (List.replicate 16 "x").length (fun i => i) = some [0, 1, 2, 3]
    ∧ ([0, 1, 2, 3] : List Nat).length
        = min defaultPasswordMaker.length defaultPasswordMaker.totalMin
    ∧ ([0, 1, 2, 3] : List Nat).Nodup
    ∧ (classifierSlices defaultPasswordMaker.classifierList [0, 1, 2, 3]).flatten
        = [0, 1, 2, 3] := by
  have h := @c6_overwrite_partition defaultPasswordMaker (List.replicate 16 "x")
    (fun i => i) 8 [0, 1, 2, 3] (by decide) (by decide) (by decide)
  exact ⟨by decide, h.1, h.2.1, h.2.2.2.1⟩

/-- Claim C7: on the call path of generate (validated spec, in-range index
draws) every index handed to replace_characters is strictly below the
buffer length, and consequently the overwrite phase cannot hit the
index-out-of-range panic, modelled as none: it always yields a buffer. -/
theorem c7_no_index_panic {m : PasswordMaker} {password : List String}
    {u : Nat → Nat} {fuel : Nat} {ns : List Nat}
    (hv : m.validate = Except.ok ())
    (_hlen : password.length = m.length)
    (hurn : uniqueRandomNumbers fuel (min m.length m.totalMin) password.length u = some ns) :
    (∀ s ∈ classifierSlices m.classifierList ns, ∀ x ∈ s, x < password.length)
    ∧ ∀ g : Nat → Nat → Nat,
        ∃ l, m.overwriteToMeetMinimumCount password u g fuel = some l := by
  obtain ⟨hlen', hnd, hb⟩ := uniqueRandomNumbers_spec hurn
  have hval := (validate_ok_iff m).1 hv
  have hminr : min m.length m.totalMin = m.totalMin := min_eq_right hval.2
  have hsum : sumMins m.classifierList ≤ ns.length := by
    rw [hlen', hminr, ← totalMin_eq_sumMins]
  constructor
  · intro s hs x hxs
    exact hb x ((classifierSlices_sublist m.classifierList ns s hs).mem hxs)
  · intro g
    obtain ⟨l, hl⟩ := overwriteLoop_isSome m.classifierList password ns g 0
      (fun j hj => hb j hj) hsum
      (fun cl hcl hpos => by
        intro hcand
        exact absurd ⟨hcand, hpos⟩ (hval.1 cl hcl))
    refine ⟨l, ?_⟩
    unfold PasswordMaker.overwriteToMeetMinimumCount
    rw [hurn]
    exact hl

/-- Witness for claim C7 at the default spec. -/
theorem c7_no_index_panic_witness :
    (∀ s ∈ classifierSlices defaultPasswordMaker.classifierList [0, 1, 2, 3],
      ∀ x ∈ s, x < (List.replicate 16 "x").length)
    ∧ ∃ l, defaultPasswordMaker.overwriteToMeetMinimumCount (List.replicate 16 "x")
        (fun i => i) (fun _ _ => 0) 8 = some l := by
  have h := @c7_no_index_panic defaultPasswordMaker (List.replicate 16 "x")
    (fun i => i) 8 [0, 1, 2, 3] (by decide) (by decide) (by decide)
  exact ⟨h.1, h.2 (fun _ _ => 0)⟩

/-! ### Claim C8: the candidate assembler -/

/-- The merged pool before the similar-character filter: lowercase,
uppercase, number, symbol, the other classifiers in declaration order,
then the optional whitespace entry. -/
def mergedCandidates (m : PasswordMaker) : List String :=
  m.lowercase.candidates ++ m.uppercase.candidates ++ m.number.candidates
    ++ m.symbol.candidates ++ (m.others.map Classifier.candidates).flatten
    ++ (if m.include_whitespace_in_candidate then [" "] else [])

/-- Claim C8: candidates is the in-order concatenation of the classifier
pools plus the optional whitespace entry, from which the exclude_similar
filter removes exactly the entries equal to one of the six similar
strings; multi-character entries are never removed, and the order and
multiplicity of the remaining entries are preserved. -/
theorem c8_candidates_characterization (m : PasswordMaker) :
    (m.exclude_similar = false → m.candidates = mergedCandidates m)
    ∧ (m.exclude_similar = true →
        m.candidates = (mergedCandidates m).filter (fun c => !isSimilarStr c))
    ∧ (∀ c : String, isSimilarStr c = true ↔
        (c = "i" ∨ c = "l" ∨ c = "1" ∨ c = "o" ∨ c = "0" ∨ c = "O"))
    ∧ (∀ c : String, 2 ≤ c.length → isSimilarStr c = false)
    ∧ m.candidates.Sublist (mergedCandidates m)
    ∧ (∀ s : String, isSimilarStr s = false →
        m.candidates.count s = (mergedCandidates m).count s) := by
  have hchar : ∀ c : String, isSimilarStr c = true ↔
      (c = "i" ∨ c = "l" ∨ c = "1" ∨ c = "o" ∨ c = "0" ∨ c = "O") := by
    intro c
    simp only [isSimilarStr, Bool.or_eq_true, beq_iff_eq]
    tauto
  have hbase : m.candidates = if m.exclude_similar then
      (mergedCandidates m).filter (fun c => !isSimilarStr c) else mergedCandidates m := by
    unfold PasswordMaker.candidates mergedCandidates
    cases m.include_whitespace_in_candidate <;> cases m.exclude_similar <;>
      simp [List.append_assoc]
  refine ⟨fun h => by rw [hbase, h]; rfl, fun h => by rw [hbase, h]; rfl, hchar, ?_, ?_, ?_⟩
  · intro c hc
    by_contra hne
    have := (hchar c).1 (by
      cases hsim : isSimilarStr c
      · exact absurd hsim hne
      · rfl)
    rcases this with rfl | rfl | rfl | rfl | rfl | rfl <;> exact absurd hc (by decide)
  · rw [hbase]
    cases m.exclude_similar <;> simp [List.filter_sublist]
  · intro s hs
    rw [hbase]
    cases m.exclude_similar with
    | false => rfl
    | true =>
      simp only [if_true]
      exact List.count_filter (by simp [hs])

/-- Witness for claim C8 at a concrete spec with exclude_similar set. -/
theorem c8_candidates_characterization_witness :
    excludeSimilarBad.candidates
        = (mergedCandidates excludeSimilarBad).filter (fun c => !isSimilarStr c)
    ∧ isSimilarStr "il" = false
    ∧ excludeSimilarBad.candidates.count "A" = (mergedCandidates excludeSimilarBad).count "A" :=
  ⟨(c8_candidates_characterization excludeSimilarBad).2.1 rfl,
    (c8_candidates_characterization excludeSimilarBad).2.2.2.1 "il" (by decide),
    (c8_candidates_characterization excludeSimilarBad).2.2.2.2.2 "A" (by decide)⟩

/-! ### Claim C9: termination of the rejection-sampling loop -/

theorem urnGo_step_reach {max count : Nat} {g : Nat → Nat} :
    ∀ (d i : Nat) (acc : List Nat),
      0 < max →
      acc.Nodup → (∀ x ∈ acc, x < max) →
      acc.length < count →
      (g (i + d) % max) ∉ acc →
      (∀ (i' : Nat) (acc' : List Nat),
        acc'.Nodup → (∀ x ∈ acc', x < max) →
        acc.length < acc'.length → acc'.length ≤ count →
        ∃ fuel ns, urnGo max count g fuel i' acc' = some ns) →
      ∃ fuel ns, urnGo max count g fuel i acc = some ns := by
  intro d
  induction d with
  | zero =>
    intro i acc hmax hnd hb hlt hnotmem hk
    rw [Nat.add_zero] at hnotmem
    obtain ⟨fuel, ns, hns⟩ := hk (i + 1) (acc ++ [g i % max])
      (by
        rw [List.nodup_append]
        exact ⟨hnd, List.nodup_singleton _, fun a ha hs =>
          hnotmem ((List.mem_singleton.1 hs) ▸ ha)⟩)
      (by
        intro x hx
        rcases List.mem_append.1 hx with hx | hx
        · exact hb x hx
        · exact (List.mem_singleton.1 hx) ▸ Nat.mod_lt _ hmax)
      (by simp)
      (by rw [List.length_append, List.length_singleton]; omega)
    refine ⟨fuel + 1, ns, ?_⟩
    simp only [urnGo]
    rw [if_neg (Nat.not_le.2 hlt), if_neg (Nat.pos_iff_ne_zero.1 hmax), if_neg hnotmem]
    exact hns
  | succ d ihd =>
    intro i acc hmax hnd hb hlt hnotmem hk
    by_cases hmem : (g i % max) ∈ acc
    · obtain ⟨fuel, ns, hns⟩ := ihd (i + 1) acc hmax hnd hb hlt
        (by
          have he : i + 1 + d = i + (d + 1) := by omega
          rw [he]
          exact hnotmem)
        hk
      refine ⟨fuel + 1, ns, ?_⟩
      simp only [urnGo]
      rw [if_neg (Nat.not_le.2 hlt), if_neg (Nat.pos_iff_ne_zero.1 hmax), if_pos hmem]
      exact hns
    · obtain ⟨fuel, ns, hns⟩ := hk (i + 1) (acc ++ [g i % max])
        (by
          rw [List.nodup_append]
          exact ⟨hnd, List.nodup_singleton _, fun a ha hs =>
            hmem ((List.mem_singleton.1 hs) ▸ ha)⟩)
        (by
          intro x hx
          rcases List.mem_append.1 hx with hx | hx
          · exact hb x hx
          · exact (List.mem_singleton.1 hx) ▸ Nat.mod_lt _ hmax)
        (by simp)
        (by rw [List.length_append, List.length_singleton]; omega)
      refine ⟨fuel + 1, ns, ?_⟩
      simp only [urnGo]
      rw [if_neg (Nat.not_le.2 hlt), if_neg (Nat.pos_iff_ne_zero.1 hmax), if_neg hmem]
      exact hns

theorem urnGo_terminates {max count : Nat} {g : Nat → Nat}
    (hcount : count ≤ max)
    (hfair : ∀ start v, v < max → ∃ j, start ≤ j ∧ g j % max = v) :
    ∀ (k i : Nat) (acc : List Nat), acc.Nodup → (∀ x ∈ acc, x < max) →
      count - acc.length ≤ k →
      ∃ fuel ns, urnGo max count g fuel i acc = some ns := by
  intro k
  induction k with
  | zero =>
    intro i acc _ _ hk
    refine ⟨0, acc, ?_⟩
    simp only [urnGo]
    rw [if_pos (by omega)]
  | succ k ihk =>
    intro i acc hnd hb hk
    by_cases hdone : count ≤ acc.length
    · refine ⟨0, acc, ?_⟩
      simp only [urnGo]
      rw [if_pos hdone]
    · have hlt : acc.length < count := Nat.lt_of_not_le hdone
      have hmax : 0 < max := by omega
      have hmiss : ∃ v, v < max ∧ v ∉ acc := by
        by_contra hno
        push_neg at hno
        have hsub : Finset.range max ⊆ acc.toFinset := fun v hv =>
          List.mem_toFinset.2 (hno v (Finset.mem_range.1 hv))
        have hcard := Finset.card_le_card hsub
        rw [Finset.card_range, List.card_toFinset, hnd.dedup] at hcard
        omega
      obtain ⟨v, hv, hvn⟩ := hmiss
      obtain ⟨j, hij, hgj⟩ := hfair i v hv
      refine urnGo_step_reach (j - i) i acc hmax hnd hb hlt ?_ ?_
      · have he : i + (j - i) = j := by omega
        rw [he, hgj]
        exact hvn
      · intro i' acc' hnd' hb' hgrow hle'
        exact ihk i' acc' hnd' hb' (by omega)

theorem uniqueRandomNumbers_terminates {max count : Nat} {g : Nat → Nat}
    (hcount : count ≤ max)
    (hfair : ∀ start v, v < max → ∃ j, start ≤ j ∧ g j % max = v) :
    ∃ fuel ns, uniqueRandomNumbers fuel count max g = some ns ∧ ns.length = count
      ∧ ns.Nodup ∧ ∀ x ∈ ns, x < max := by
  obtain ⟨fuel, ns, h⟩ := urnGo_terminates hcount hfair count 0 []
    List.nodup_nil (by simp) (by simp)
  obtain ⟨h1, h2, h3⟩ := urnGo_spec fuel 0 [] ns h List.nodup_nil (by simp) (by simp)
  exact ⟨fuel, ns, h, h1, h2, h3⟩

/-- Claim C9: for a validated spec with a non-empty pool, and a random
stream in which every value below length keeps occurring, the
rejection-sampling loop reaches its target of min(length, total minimum)
distinct values (possible because that target never exceeds length), and
the whole generate computation finishes with a password. -/
theorem c9_generate_terminates (m : PasswordMaker) (f u : Nat → Nat) (r : Nat → Nat → Nat)
    (hv : m.validate = Except.ok ())
    (hne : m.candidates ≠ [])
    (hfair : ∀ start v, v < m.length → ∃ j, start ≤ j ∧ u j % m.length = v) :
    (∃ fuel ns, uniqueRandomNumbers fuel (min m.length m.totalMin) m.length u = some ns
        ∧ ns.length = min m.length m.totalMin)
    ∧ ∃ fuel res, m.generate f u r fuel = some (Except.ok res) := by
  have hcount : min m.length m.totalMin ≤ m.length := min_le_left _ _
  obtain ⟨fuel, ns, hurn, hlen, hnd, hb⟩ := uniqueRandomNumbers_terminates hcount hfair
  refine ⟨⟨fuel, ns, hurn, hlen⟩, ?_⟩
  have hval := (validate_ok_iff m).1 hv
  have hminr : min m.length m.totalMin = m.totalMin := min_eq_right hval.2
  have hsum : sumMins m.classifierList ≤ ns.length := by
    rw [hlen, hminr, ← totalMin_eq_sumMins]
  obtain ⟨l, hol⟩ := overwriteLoop_isSome m.classifierList (fillPassword m f) ns r 0
    (fun j hj => by
      rw [fillPassword_length]
      exact hb j hj)
    hsum
    (fun cl hcl hpos hcand => absurd ⟨hcand, hpos⟩ (hval.1 cl hcl))
  have hgl := generateList_of_components hv hne hurn hol
  refine ⟨fuel, String.join l, ?_⟩
  unfold PasswordMaker.generate
  rw [hgl]
  rfl

/-- Witness for claim C9 at the default spec with the identity stream. -/
theorem c9_generate_terminates_witness :
    ∃ fuel res, defaultPasswordMaker.generate (fun _ => 0) (fun i => i) (fun _ _ => 0) fuel
      = some (Except.ok res) :=
  (c9_generate_terminates defaultPasswordMaker (fun _ => 0) (fun i => i) (fun _ _ => 0)
    (by decide) (by decide)
    (fun start v hv =>
      ⟨16 * (start + 1) + v, by omega, by
        have hv16 : v < 16 := hv
        show (16 * (start + 1) + v) % 16 = v
        omega⟩)).2

/-- Claim C10: generate is a pure function of the spec and the injected
random streams: extensionally equal streams give identical results, with
no dependence on hidden state. -/
theorem c10_deterministic (m : PasswordMaker) (f1 f2 u1 u2 : Nat → Nat)
    (r1 r2 : Nat → Nat → Nat) (fuel : Nat)
    (hf : ∀ i, f1 i = f2 i) (hu : ∀ i, u1 i = u2 i) (hr : ∀ k i, r1 k i = r2 k i) :
    m.generate f1 u1 r1 fuel = m.generate f2 u2 r2 fuel := by
  have hf2 : f1 = f2 := funext hf
  have hu2 : u1 = u2 := funext hu
  have hr2 : r1 = r2 := funext fun k => funext (hr k)
  rw [hf2, hu2, hr2]

/-- Witness for claim C10 at the default spec. -/
theorem c10_deterministic_witness :
    defaultPasswordMaker.generate (fun i => i) (fun i => i) (fun k i => k + i) 8
      = defaultPasswordMaker.generate (fun i => i) (fun i => i) (fun k i => k + i) 8 :=
  c10_deterministic defaultPasswordMaker (fun i => i) (fun i => i) (fun i => i) (fun i => i)
    (fun k i => k + i) (fun k i => k + i) 8 (fun _ => rfl) (fun _ => rfl) (fun _ _ => rfl)

end Mkpw
